import Mathlib

/-!
Verification of the snippet-extraction-and-validation harness.

The harness consists of two small scripts sharing one extraction step:
a fence extractor (regex findall over the raw document text), a syntax
validator (parse each trimmed block, fail fast), and an execution
validator (skip-list filter, entry-point-guard stripping, execution of
the surviving blocks against one accumulating environment, then probing
of a fixed symbol table).

Strings are embedded as lists of characters.  The dynamic-language
facilities of the host (the exec and eval primitives and the structural
parser) are modelled as explicit function parameters; theorems about the
control flow of the harness are proved for every choice of those
parameters, and a small concrete mini-interpreter instantiates them
where a claim needs actual define-and-call semantics.
-/

/-! ## Basic string utilities -/

/-- Whitespace test matching the character class trimmed by the
string strip operation of the source language. -/
def isWS (c : Char) : Bool :=
  c = ' ' || c = '\t' || c = '\n' || c = '\r' || c = '\x0b' || c = '\x0c'

/-- Trim leading and trailing whitespace, the model of the strip
operation applied by both validators before inspecting a block. -/
def trim (s : List Char) : List Char :=
  ((s.dropWhile isWS).reverse.dropWhile isWS).reverse

/-- Boolean test that the first argument is a prefix of the second. -/
def isPreB : List Char → List Char → Bool
  | [], _ => true
  | _ :: _, [] => false
  | p :: ps, c :: cs => if p = c then isPreB ps cs else false

/-- If the first argument is a prefix of the second, return the rest. -/
def dropPre : List Char → List Char → Option (List Char)
  | [], s => some s
  | _ :: _, [] => none
  | p :: ps, c :: cs => if p = c then dropPre ps cs else none

/-- Substring containment, the model of the membership test used for the
skip patterns and for the entry-point guard. -/
def containsSub (pat : List Char) : List Char → Bool
  | [] => pat.isEmpty
  | c :: cs => isPreB pat (c :: cs) || containsSub pat cs

/-- The text strictly before the first occurrence of a pattern: the
model of taking the head of a split at that pattern (the whole string
when the pattern does not occur). -/
def beforeSub (pat : List Char) : List Char → List Char
  | [] => []
  | c :: cs => if isPreB pat (c :: cs) then [] else c :: beforeSub pat cs

/-- Split a string into its newline-separated lines. -/
def splitLines : List Char → List (List Char)
  | [] => [[]]
  | c :: cs =>
    if c = '\n' then [] :: splitLines cs
    else
      match splitLines cs with
      | [] => [[c]]
      | l :: ls => (c :: l) :: ls

/-- Whether an exception-or-value result is a success. -/
def exceptOk : Except (List Char) α → Bool
  | .ok _ => true
  | .error _ => false

/-! ## The extractor

The source finds blocks with a non-greedy regex: the literal opener
marker (three backticks and the language tag in braces), a lazily
matched capture group, and the literal three-backtick closer, with the
dot matching newlines.  The faithful procedural reading: find the
leftmost opener occurrence, capture minimally up to the next closer
occurrence, resume after that closer; when an opener has no later closer
occurrence there is no further match and scanning ends. -/

/-- The fence opener marker of the source pattern. -/
def openMark : List Char :=
  ['`', '`', '`', '\x7b', 'p', 'y', 't', 'h', 'o', 'n', '\x7d']

/-- The fence closer marker of the source pattern. -/
def closeMark : List Char := ['`', '`', '`']

/-- Locate the leftmost occurrence of the opener marker and return the
text following it, if any. -/
def findOpen : List Char → Option (List Char)
  | [] => none
  | c :: cs =>
    match dropPre openMark (c :: cs) with
    | some rest => some rest
    | none => findOpen cs

/-- Split at the leftmost occurrence of the closer marker: the captured
text before it and the text after it, if the closer occurs at all. -/
def splitClose : List Char → Option (List Char × List Char)
  | [] => none
  | c :: cs =>
    match dropPre closeMark (c :: cs) with
    | some rest => some ([], rest)
    | none =>
      match splitClose cs with
      | none => none
      | some (b, rest) => some (c :: b, rest)

/-- Fuelled extraction loop; each step consumes at least the opener and
closer markers, so fuel equal to the text length always suffices. -/
def extractAux : Nat → List Char → List (List Char)
  | 0, _ => []
  | fuel + 1, s =>
    match findOpen s with
    | none => []
    | some s1 =>
      match splitClose s1 with
      | none => []
      | some (b, rest) => b :: extractAux fuel rest

/-- The extraction step: all captured blocks, in document order. -/
def extractBlocks (s : List Char) : List (List Char) :=
  extractAux s.length s

/-! ## Well-formed documents

A generator for documents whose fence material consists exactly of a
given list of well-formed fence pairs: interleaved interludes and
blocks, where the interludes and block bodies are free of the backtick
character, every block body begins and ends with a newline (the opener
is immediately followed by a newline and the closer stands at the start
of a line), and the text after each closer starts on a fresh line. -/

/-- Render a document from (interlude, block body) pairs and a final
trailing interlude. -/
def renderDoc : List (List Char × List Char) → List Char → List Char
  | [], tl => tl
  | (inter, b) :: rest, tl =>
    inter ++ openMark ++ b ++ closeMark ++ renderDoc rest tl

/-- Backtick-freeness of a piece of text. -/
def noTick (s : List Char) : Prop := '`' ∉ s

/-- One well-formed fence pair: tick-free interlude and body, the body
starting with the newline that follows the language tag and ending with
the newline that puts the closer on its own line. -/
def GoodPair (p : List Char × List Char) : Prop :=
  noTick p.1 ∧ noTick p.2 ∧ p.2.head? = some '\n' ∧ p.2.getLast? = some '\n'

/-- A document whose fenced material is exactly the given well-formed
pairs: all pairs good, every interlude after the first and the trailing
text begin on a fresh line, and the trailing text is tick-free. -/
def WellFormedDoc (ps : List (List Char × List Char)) (tl : List Char) : Prop :=
  (∀ p ∈ ps, GoodPair p) ∧ (∀ p ∈ ps.tail, p.1.head? = some '\n') ∧
    noTick tl ∧ (tl = [] ∨ tl.head? = some '\n')

instance (s : List Char) : Decidable (noTick s) := by
  unfold noTick; infer_instance

instance (p : List Char × List Char) : Decidable (GoodPair p) := by
  unfold GoodPair; infer_instance

instance (ps : List (List Char × List Char)) (tl : List Char) :
    Decidable (WellFormedDoc ps tl) := by
  unfold WellFormedDoc; infer_instance

/-! ### Extraction lemmas -/

lemma dropPre_self_append (p s : List Char) : dropPre p (p ++ s) = some s := by
  induction p with
  | nil => rfl
  | cons c cs ih => simp [dropPre, ih]

lemma dropPre_head_ne {p c : Char} (ps cs : List Char) (h : p ≠ c) :
    dropPre (p :: ps) (c :: cs) = none := by
  simp [dropPre, h]

lemma notick_head {c : Char} {cs : List Char} (h : noTick (c :: cs)) : c ≠ '`' := by
  intro hc
  exact h (by simp [hc])

lemma notick_tail {c : Char} {cs : List Char} (h : noTick (c :: cs)) : noTick cs :=
  fun hm => h (List.mem_cons_of_mem _ hm)

lemma findOpen_append (pre s : List Char) (h : noTick pre) :
    findOpen (pre ++ (openMark ++ s)) = some s := by
  induction pre with
  | nil =>
    show findOpen (openMark ++ s) = some s
    rw [show openMark ++ s = '`' :: (['`', '`', '\x7b', 'p', 'y', 't', 'h', 'o', 'n', '\x7d'] ++ s)
        from rfl]
    rw [findOpen]
    rw [show ('`' :: (['`', '`', '\x7b', 'p', 'y', 't', 'h', 'o', 'n', '\x7d'] ++ s)) =
        openMark ++ s from rfl]
    rw [dropPre_self_append]
  | cons c cs ih =>
    have hc := notick_head h
    show findOpen (c :: (cs ++ (openMark ++ s))) = some s
    rw [findOpen, show openMark = '`' :: ['`', '`', '\x7b', 'p', 'y', 't', 'h', 'o', 'n', '\x7d']
        from rfl]
    rw [dropPre_head_ne _ _ (Ne.symm hc)]
    exact ih (notick_tail h)

lemma findOpen_noTick (s : List Char) (h : noTick s) : findOpen s = none := by
  induction s with
  | nil => rfl
  | cons c cs ih =>
    have hc := notick_head h
    rw [findOpen, show openMark = '`' :: ['`', '`', '\x7b', 'p', 'y', 't', 'h', 'o', 'n', '\x7d']
        from rfl]
    rw [dropPre_head_ne _ _ (Ne.symm hc)]
    exact ih (notick_tail h)

lemma splitClose_append (b s : List Char) (h : noTick b) :
    splitClose (b ++ (closeMark ++ s)) = some (b, s) := by
  induction b with
  | nil =>
    show splitClose (closeMark ++ s) = some ([], s)
    rw [show closeMark ++ s = '`' :: (['`', '`'] ++ s) from rfl]
    rw [splitClose]
    rw [show ('`' :: (['`', '`'] ++ s)) = closeMark ++ s from rfl]
    rw [dropPre_self_append]
  | cons c cs ih =>
    have hc := notick_head h
    show splitClose (c :: (cs ++ (closeMark ++ s))) = some (c :: cs, s)
    rw [splitClose, show closeMark = '`' :: ['`', '`'] from rfl]
    rw [dropPre_head_ne _ _ (Ne.symm hc)]
    rw [show ('`' :: ['`', '`']) = closeMark from rfl, ih (notick_tail h)]

lemma splitClose_noTick (s : List Char) (h : noTick s) : splitClose s = none := by
  induction s with
  | nil => rfl
  | cons c cs ih =>
    have hc := notick_head h
    rw [splitClose, show closeMark = '`' :: ['`', '`'] from rfl]
    rw [dropPre_head_ne _ _ (Ne.symm hc)]
    rw [ih (notick_tail h)]

lemma extractAux_render (ps : List (List Char × List Char)) (tl : List Char)
    (hps : ∀ p ∈ ps, noTick p.1 ∧ noTick p.2)
    (htl : ∀ f, extractAux f tl = []) :
    ∀ fuel, (renderDoc ps tl).length ≤ fuel →
      extractAux fuel (renderDoc ps tl) = ps.map Prod.snd := by
  induction ps with
  | nil =>
    intro fuel _
    simpa [renderDoc] using htl fuel
  | cons p rest ih =>
    obtain ⟨inter, b⟩ := p
    intro fuel hfuel
    obtain ⟨hp1, hp2⟩ := hps (inter, b) (List.mem_cons_self _ _)
    have hrest : ∀ q ∈ rest, noTick q.1 ∧ noTick q.2 := fun q hq =>
      hps q (List.mem_cons_of_mem _ hq)
    have hdoc : renderDoc ((inter, b) :: rest) tl =
        inter ++ (openMark ++ (b ++ (closeMark ++ renderDoc rest tl))) := by
      simp [renderDoc]
    rw [hdoc] at hfuel ⊢
    simp only [List.length_append, openMark, closeMark, List.length_cons,
      List.length_nil] at hfuel
    cases fuel with
    | zero => omega
    | succ f =>
      rw [extractAux,
        findOpen_append inter (b ++ (closeMark ++ renderDoc rest tl)) hp1]
      have hsc := splitClose_append b (renderDoc rest tl) hp2
      have hih := ih hrest f (by omega)
      simp [hsc, hih]

lemma extractAux_noTick_tail (tl : List Char) (h : noTick tl) :
    ∀ f, extractAux f tl = [] := by
  intro f
  cases f with
  | zero => rfl
  | succ f => rw [extractAux, findOpen_noTick _ h]

/-! ## Claim C1 and Claim C9: the extraction step -/

/-- A document containing exactly one well-formed fence pair (opener
immediately followed by a newline, closer alone on its own line at the
end), preceded by a dangling opener.  The extractor treats the backticks
of the second opener as the closer of the first. -/
def cexDoc1 : List Char := "```{python}\nX\n```{python}\nB\n```".data

/-- A document with two openers and no closer line anywhere. -/
def cexDoc2 : List Char := "```{python}\nA\n```{python}\nB\nend".data

/-- Claim C1, counterexample.  The document decomposes as a dangling
opener region followed by one well-formed fence pair whose body is the
text between the language tag and the closer marker; yet extraction
returns a single block whose text is taken from the dangling opener and
equals the body of no well-formed pair of the document (under either
convention for the boundary newline). -/
theorem extraction_count_cex :
    cexDoc1 = "```{python}\nX\n".data ++ openMark ++ "\nB\n".data ++ closeMark ∧
    extractBlocks cexDoc1 = ["\nX\n".data] ∧
    "\nX\n".data ≠ "\nB\n".data ∧ "\nX\n".data ≠ "B\n".data := by
  decide

/-- Claim C1, amended: for every document whose fence material consists
exactly of K well-formed fence pairs (tick-free interludes and bodies),
extraction returns exactly K blocks, in document order, each block being
verbatim the literal text standing between the language tag of its
opener and its closer marker, boundary and internal newlines included. -/
theorem extraction_wellformed (ps : List (List Char × List Char)) (tl : List Char)
    (h : WellFormedDoc ps tl) :
    extractBlocks (renderDoc ps tl) = ps.map Prod.snd ∧
    (extractBlocks (renderDoc ps tl)).length = ps.length := by
  have hps : ∀ p ∈ ps, noTick p.1 ∧ noTick p.2 := fun p hp =>
    ⟨(h.1 p hp).1, (h.1 p hp).2.1⟩
  have htl := extractAux_noTick_tail tl h.2.2.1
  have hmain := extractAux_render ps tl hps htl (renderDoc ps tl).length le_rfl
  exact ⟨hmain, by rw [show extractBlocks (renderDoc ps tl) = ps.map Prod.snd from hmain,
    List.length_map]⟩

/-- Two well-formed fence pairs used to instantiate the extraction
theorems on concrete input. -/
def demoPairs : List (List Char × List Char) :=
  [("Intro text\n".data, "\ndef f(x):\n    return x\n".data),
   ("\nmiddle text\n".data, "\n\nprint(1)\n".data)]

/-- A tick-free trailing interlude for the concrete documents. -/
def demoTail : List Char := "\nclosing text".data

theorem extraction_wellformed_witness :
    extractBlocks (renderDoc demoPairs demoTail) = demoPairs.map Prod.snd ∧
    (extractBlocks (renderDoc demoPairs demoTail)).length = demoPairs.length :=
  extraction_wellformed demoPairs demoTail (by decide)

/-- Claim C9, counterexample.  In this document no line consists of the
closer marker alone, so the leading opener has no matching closer; the
claim requires every dangling opener to yield no block, hence an empty
extraction result, but the extractor consumes the backticks of the
second opener as a closer and returns one block. -/
theorem dangling_cex :
    (∀ l ∈ splitLines cexDoc2, l ≠ closeMark) ∧
    isPreB openMark cexDoc2 = true ∧
    extractBlocks cexDoc2 = ["\nA\n".data] := by
  decide

/-- Claim C9, amended: when a dangling opener is followed by no further
occurrence of the fence marker at all, extraction terminates, the
dangling opener yields no block, and every well-formed fence pair
occurring before it is returned unchanged. -/
theorem extraction_dangling (ps : List (List Char × List Char)) (tlPre rest : List Char)
    (hps : ∀ p ∈ ps, GoodPair p) (h1 : noTick tlPre) (h2 : noTick rest) :
    extractBlocks (renderDoc ps (tlPre ++ (openMark ++ rest))) = ps.map Prod.snd := by
  have hps2 : ∀ p ∈ ps, noTick p.1 ∧ noTick p.2 := fun p hp =>
    ⟨(hps p hp).1, (hps p hp).2.1⟩
  have htl : ∀ f, extractAux f (tlPre ++ (openMark ++ rest)) = [] := by
    intro f
    cases f with
    | zero => rfl
    | succ f =>
      rw [extractAux, findOpen_append tlPre rest h1]
      simp [splitClose_noTick rest h2]
  exact extractAux_render ps _ hps2 htl _ le_rfl

theorem extraction_dangling_witness :
    extractBlocks (renderDoc demoPairs
        ("\nlater text\n".data ++ (openMark ++ "\nno closer here".data))) =
      demoPairs.map Prod.snd :=
  extraction_dangling demoPairs "\nlater text\n".data "\nno closer here".data
    (by decide) (by decide) (by decide)

/-! ## The syntax validator

The syntax checker walks the blocks in order with a running 1-based
index, skips blank blocks without a parse attempt, parses the trimmed
text of each non-blank block, and on the first parse failure stops with
the index, the diagnostic, and the first 100 characters of the trimmed
content.  The structural parser itself is a parameter; the instrumented
output also records the index of every block a parse was attempted on,
making the fail-fast property observable. -/

/-- A structural parser: success or a diagnostic message. -/
abbrev ParseFn := List Char → Except (List Char) Unit

/-- Output of the syntax checker: the first failure (1-based block
index, diagnostic, 100-character preview of the trimmed content) if any,
and the indices of all blocks a parse was attempted on. -/
structure SynOut where
  failure : Option (Nat × List Char × List Char)
  attempts : List Nat
deriving DecidableEq

/-- The syntax checking loop, carrying the next 1-based block index. -/
def checkSyntaxAux (parse : ParseFn) : Nat → List (List Char) → SynOut
  | _, [] => ⟨none, []⟩
  | i, b :: bs =>
    let t := trim b
    if t = [] then checkSyntaxAux parse (i + 1) bs
    else
      match parse t with
      | .ok _ =>
        let o := checkSyntaxAux parse (i + 1) bs
        ⟨o.failure, i :: o.attempts⟩
      | .error m => ⟨some (i, m, t.take 100), [i]⟩

/-- The syntax validator entry point: blocks indexed from 1. -/
def checkSyntax (parse : ParseFn) (bs : List (List Char)) : SynOut :=
  checkSyntaxAux parse 1 bs

/-! ## The execution validator -/

/-- The accumulating evaluation environment: symbol names bound to
values, later bindings shadowing earlier ones. -/
abbrev Env (V : Type) := List (List Char × V)

/-- The dynamic execution primitive: code and environment in, updated
environment and optional error out.  On an error the returned
environment holds every binding made before the error was raised. -/
abbrev ExecFn (V : Type) := List Char → Env V → Env V × Option (List Char)

/-- Status of one processed block. -/
inductive BStatus
  | executed
  | skipped
  | runtimeErr (msg : List Char)
deriving DecidableEq

/-- One per-block result record. -/
structure BlockRes where
  idx : Nat
  status : BStatus
deriving DecidableEq

/-- Output of the execution loop: the per-block results, the final
environment, and a trace of every (block index, code text) actually
passed to the execution primitive. -/
structure ExecOut (V : Type) where
  results : List BlockRes
  env : Env V
  trace : List (Nat × List Char)

/-- The fixed exclusion substrings of the source. -/
def skipPats : List (List Char) :=
  ["pool.map(".data, "ProcessPoolExecutor".data, "executor.map".data,
   "mp.Pool(".data, "multiprocessing.Pool(".data]

/-- The fixed entry-point guard literal of the source. -/
def guardLit : List Char := "if __name__ == \"__main__\"".data

/-- Whether a trimmed block text contains some exclusion substring. -/
def skipHit (t : List Char) : Bool := skipPats.any fun p => containsSub p t

/-- The code actually executed for a surviving block: its trimmed text,
truncated (and re-trimmed) at the first occurrence of the entry-point
guard literal when that literal occurs in it. -/
def effCode (b : List Char) : List Char :=
  let t := trim b
  if containsSub guardLit t = true then trim (beforeSub guardLit t) else t

/-- Result status from the outcome of the execution primitive. -/
def resStatus : Option (List Char) → BStatus
  | none => .executed
  | some m => .runtimeErr m

/-- The execution loop: blank blocks are passed over silently, blocks
hit by the exclusion policy are recorded as skipped without execution,
and every other block has its effective code run against the
accumulating environment, a raised error being recorded without
stopping the loop or rolling the environment back. -/
def runBlocks {V : Type} (execB : ExecFn V) :
    Nat → Env V → List (List Char) → ExecOut V
  | _, env, [] => ⟨[], env, []⟩
  | i, env, b :: bs =>
    let t := trim b
    if t = [] then runBlocks execB (i + 1) env bs
    else if skipHit t = true then
      let o := runBlocks execB (i + 1) env bs
      ⟨⟨i, .skipped⟩ :: o.results, o.env, o.trace⟩
    else
      let r := execB (effCode b) env
      let o := runBlocks execB (i + 1) r.1 bs
      ⟨⟨i, resStatus r.2⟩ :: o.results, o.env, (i, effCode b) :: o.trace⟩

/-- The environment transformation contributed by a single block. -/
def stepE {V : Type} (execB : ExecFn V) (env : Env V) (b : List Char) : Env V :=
  let t := trim b
  if t = [] then env
  else if skipHit t = true then env
  else (execB (effCode b) env).1

/-- The environment after the first k blocks have been considered. -/
def envAt {V : Type} (execB : ExecFn V) (env0 : Env V) (bs : List (List Char))
    (k : Nat) : Env V :=
  (bs.take k).foldl (stepE execB) env0

/-- The result record a block should produce, given the environment it
is considered in: none for a blank block, skipped for an excluded one,
and the outcome of the execution primitive otherwise. -/
def expectedSt {V : Type} (execB : ExecFn V) (env : Env V) (b : List Char) :
    Option BStatus :=
  let t := trim b
  if t = [] then none
  else if skipHit t = true then some .skipped
  else some (resStatus (execB (effCode b) env).2)

/-- Status of one probed symbol. -/
inductive PStatus (W : Type)
  | ok (v : W)
  | err (msg : List Char)
  | notFound
deriving DecidableEq

/-- Environment lookup, first (most recent) binding wins. -/
def lookupE {V : Type} (k : List Char) : Env V → Option V
  | [] => none
  | (n, v) :: r => if n = k then some v else lookupE k r

/-- The dynamic evaluation primitive used for probe invocations. -/
abbrev EvalFn (E V W : Type) := E → Env V → Except (List Char) W

/-- Probe a single entry: absent symbols give notFound, otherwise the
literal invocation expression is evaluated and its success or captured
error recorded. -/
def probeOne {E V W : Type} (evalB : EvalFn E V W) (env : Env V)
    (p : List Char × E) : List Char × PStatus W :=
  (p.1,
    match lookupE p.1 env with
    | none => .notFound
    | some _ =>
      match evalB p.2 env with
      | .ok v => .ok v
      | .error m => .err m)

/-- Probe every entry of the probe table against the final environment. -/
def runProbes {E V W : Type} (evalB : EvalFn E V W) (env : Env V)
    (probes : List (List Char × E)) : List (List Char × PStatus W) :=
  probes.map (probeOne evalB env)

/-- Exit code of the syntax validator run: 1 when the source is
unreadable, otherwise 0 exactly when no block failed to parse. -/
def syntaxExit (parse : ParseFn) : Option (List Char) → Nat
  | none => 1
  | some c =>
    match (checkSyntax parse (extractBlocks c)).failure with
    | none => 0
    | some _ => 1

/-- Exit code of the execution validator run: 1 when the source is
unreadable, otherwise 0 unconditionally — the block results and probe
results are produced and reported but never flip the outcome. -/
def execExit {E V W : Type} (execB : ExecFn V) (evalB : EvalFn E V W)
    (probes : List (List Char × E)) : Option (List Char) → Nat
  | none => 1
  | some c =>
    let o := runBlocks execB 1 [] (extractBlocks c)
    let _pr := runProbes evalB o.env probes
    0

/-! ### Step equations for the loops -/

lemma runBlocks_cons_blank {V : Type} (execB : ExecFn V) (i : Nat) (env : Env V)
    (b : List Char) (bs : List (List Char)) (hb : trim b = []) :
    runBlocks execB i env (b :: bs) = runBlocks execB (i + 1) env bs := by
  simp [runBlocks, hb]

lemma runBlocks_cons_skip {V : Type} (execB : ExecFn V) (i : Nat) (env : Env V)
    (b : List Char) (bs : List (List Char)) (hb : trim b ≠ [])
    (hs : skipHit (trim b) = true) :
    runBlocks execB i env (b :: bs) =
      ⟨⟨i, .skipped⟩ :: (runBlocks execB (i + 1) env bs).results,
        (runBlocks execB (i + 1) env bs).env,
        (runBlocks execB (i + 1) env bs).trace⟩ := by
  simp [runBlocks, hb, hs]

lemma runBlocks_cons_run {V : Type} (execB : ExecFn V) (i : Nat) (env : Env V)
    (b : List Char) (bs : List (List Char)) (hb : trim b ≠ [])
    (hs : skipHit (trim b) = false) :
    runBlocks execB i env (b :: bs) =
      ⟨⟨i, resStatus (execB (effCode b) env).2⟩ ::
          (runBlocks execB (i + 1) (execB (effCode b) env).1 bs).results,
        (runBlocks execB (i + 1) (execB (effCode b) env).1 bs).env,
        (i, effCode b) ::
          (runBlocks execB (i + 1) (execB (effCode b) env).1 bs).trace⟩ := by
  simp [runBlocks, hb, hs]

lemma stepE_blank {V : Type} (execB : ExecFn V) (env : Env V) (b : List Char)
    (hb : trim b = []) : stepE execB env b = env := by
  simp [stepE, hb]

lemma stepE_skip {V : Type} (execB : ExecFn V) (env : Env V) (b : List Char)
    (hb : trim b ≠ []) (hs : skipHit (trim b) = true) :
    stepE execB env b = env := by
  simp [stepE, hb, hs]

lemma stepE_run {V : Type} (execB : ExecFn V) (env : Env V) (b : List Char)
    (hb : trim b ≠ []) (hs : skipHit (trim b) = false) :
    stepE execB env b = (execB (effCode b) env).1 := by
  simp [stepE, hb, hs]

lemma envAt_zero {V : Type} (execB : ExecFn V) (env0 : Env V)
    (bs : List (List Char)) : envAt execB env0 bs 0 = env0 := rfl

lemma envAt_cons {V : Type} (execB : ExecFn V) (env0 : Env V) (b : List Char)
    (bs : List (List Char)) (k : Nat) :
    envAt execB env0 (b :: bs) (k + 1) = envAt execB (stepE execB env0 b) bs k := by
  simp [envAt, List.take_succ_cons]

lemma envAt_succ {V : Type} (execB : ExecFn V) (env0 : Env V)
    (bs : List (List Char)) (j : Nat) (hj : j < bs.length) :
    envAt execB env0 bs (j + 1) =
      stepE execB (envAt execB env0 bs j) (bs.get ⟨j, hj⟩) := by
  induction bs generalizing env0 j with
  | nil => exact absurd hj (by simp)
  | cons b bs ih =>
    cases j with
    | zero => rfl
    | succ j =>
      rw [envAt_cons, envAt_cons]
      exact ih (stepE execB env0 b) j (Nat.lt_of_succ_lt_succ hj)

lemma skipHit_nil : skipHit [] = false := by decide

/-! ### Characterisation of the execution loop output -/

lemma runBlocks_results_mem {V : Type} (execB : ExecFn V) :
    ∀ (bs : List (List Char)) (env : Env V) (i0 j : Nat) (hj : j < bs.length)
      (st : BStatus),
      expectedSt execB (envAt execB env bs j) (bs.get ⟨j, hj⟩) = some st →
      BlockRes.mk (i0 + j) st ∈ (runBlocks execB i0 env bs).results := by
  intro bs
  induction bs with
  | nil =>
    intro env i0 j hj
    exact absurd hj (by simp)
  | cons b bs ih =>
    intro env i0 j hj st hst
    cases j with
    | zero =>
      rw [envAt_zero] at hst
      by_cases hb : trim b = []
      · simp [expectedSt, hb] at hst
      · by_cases hs : skipHit (trim b) = true
        · have hstv : st = .skipped := by
            simp [expectedSt, hb, hs] at hst
            exact hst.symm
          rw [runBlocks_cons_skip execB i0 env b bs hb hs, hstv]
          exact List.mem_cons_self _ _
        · have hsf : skipHit (trim b) = false := by
            cases hx : skipHit (trim b) <;> simp_all
          have hstv : st = resStatus (execB (effCode b) env).2 := by
            simp [expectedSt, hb, hsf] at hst
            exact hst.symm
          rw [runBlocks_cons_run execB i0 env b bs hb hsf, hstv]
          exact List.mem_cons_self _ _
    | succ j =>
      have hj2 : j < bs.length := Nat.lt_of_succ_lt_succ hj
      rw [envAt_cons] at hst
      have hidx : i0 + (j + 1) = (i0 + 1) + j := by omega
      by_cases hb : trim b = []
      · rw [runBlocks_cons_blank execB i0 env b bs hb, hidx]
        rw [stepE_blank execB env b hb] at hst
        exact ih env (i0 + 1) j hj2 st hst
      · by_cases hs : skipHit (trim b) = true
        · rw [runBlocks_cons_skip execB i0 env b bs hb hs, hidx]
          rw [stepE_skip execB env b hb hs] at hst
          exact List.mem_cons_of_mem _ (ih env (i0 + 1) j hj2 st hst)
        · have hsf : skipHit (trim b) = false := by
            cases hx : skipHit (trim b) <;> simp_all
          rw [runBlocks_cons_run execB i0 env b bs hb hsf, hidx]
          rw [stepE_run execB env b hb hsf] at hst
          exact List.mem_cons_of_mem _
            (ih (execB (effCode b) env).1 (i0 + 1) j hj2 st hst)

lemma runBlocks_trace_chr {V : Type} (execB : ExecFn V) :
    ∀ (bs : List (List Char)) (env : Env V) (i0 : Nat) (e : Nat × List Char),
      e ∈ (runBlocks execB i0 env bs).trace →
      ∃ k : Fin bs.length, e.1 = i0 + k.1 ∧ trim (bs.get k) ≠ [] ∧
        skipHit (trim (bs.get k)) = false ∧ e.2 = effCode (bs.get k) := by
  intro bs
  induction bs with
  | nil =>
    intro env i0 e he
    simp [runBlocks] at he
  | cons b bs ih =>
    intro env i0 e he
    by_cases hb : trim b = []
    · rw [runBlocks_cons_blank execB i0 env b bs hb] at he
      obtain ⟨k, hk1, hk2, hk3, hk4⟩ := ih env (i0 + 1) e he
      exact ⟨⟨k.1 + 1, Nat.succ_lt_succ k.2⟩,
        by show e.1 = i0 + (k.1 + 1); omega, hk2, hk3, hk4⟩
    · by_cases hs : skipHit (trim b) = true
      · rw [runBlocks_cons_skip execB i0 env b bs hb hs] at he
        obtain ⟨k, hk1, hk2, hk3, hk4⟩ := ih env (i0 + 1) e he
        exact ⟨⟨k.1 + 1, Nat.succ_lt_succ k.2⟩,
          by show e.1 = i0 + (k.1 + 1); omega, hk2, hk3, hk4⟩
      · have hsf : skipHit (trim b) = false := by
          cases hx : skipHit (trim b) <;> simp_all
        rw [runBlocks_cons_run execB i0 env b bs hb hsf] at he
        rcases List.mem_cons.mp he with h1 | h2
        · refine ⟨⟨0, Nat.succ_pos _⟩, ?_, hb, hsf, ?_⟩
          · rw [h1]
            show i0 = i0 + 0
            omega
          · rw [h1]
            rfl
        · obtain ⟨k, hk1, hk2, hk3, hk4⟩ := ih (execB (effCode b) env).1 (i0 + 1) e h2
          exact ⟨⟨k.1 + 1, Nat.succ_lt_succ k.2⟩,
            by show e.1 = i0 + (k.1 + 1); omega, hk2, hk3, hk4⟩

lemma runBlocks_trace_mem {V : Type} (execB : ExecFn V) :
    ∀ (bs : List (List Char)) (env : Env V) (i0 j : Nat) (hj : j < bs.length),
      trim (bs.get ⟨j, hj⟩) ≠ [] → skipHit (trim (bs.get ⟨j, hj⟩)) = false →
      (i0 + j, effCode (bs.get ⟨j, hj⟩)) ∈ (runBlocks execB i0 env bs).trace := by
  intro bs
  induction bs with
  | nil =>
    intro env i0 j hj
    exact absurd hj (by simp)
  | cons b bs ih =>
    intro env i0 j hj hnb hns
    cases j with
    | zero =>
      rw [runBlocks_cons_run execB i0 env b bs hnb hns]
      exact List.mem_cons_self _ _
    | succ j =>
      have hj2 : j < bs.length := Nat.lt_of_succ_lt_succ hj
      have hidx : i0 + (j + 1) = (i0 + 1) + j := by omega
      by_cases hb : trim b = []
      · rw [runBlocks_cons_blank execB i0 env b bs hb, hidx]
        exact ih env (i0 + 1) j hj2 hnb hns
      · by_cases hs : skipHit (trim b) = true
        · rw [runBlocks_cons_skip execB i0 env b bs hb hs, hidx]
          exact ih env (i0 + 1) j hj2 hnb hns
        · have hsf : skipHit (trim b) = false := by
            cases hx : skipHit (trim b) <;> simp_all
          rw [runBlocks_cons_run execB i0 env b bs hb hsf, hidx]
          exact List.mem_cons_of_mem _
            (ih (execB (effCode b) env).1 (i0 + 1) j hj2 hnb hns)

lemma runBlocks_env {V : Type} (execB : ExecFn V) :
    ∀ (bs : List (List Char)) (env : Env V) (i0 : Nat),
      (runBlocks execB i0 env bs).env = envAt execB env bs bs.length := by
  intro bs
  induction bs with
  | nil => intro env i0; rfl
  | cons b bs ih =>
    intro env i0
    rw [show (b :: bs).length = bs.length + 1 from rfl, envAt_cons]
    by_cases hb : trim b = []
    · rw [runBlocks_cons_blank execB i0 env b bs hb, stepE_blank execB env b hb]
      exact ih env (i0 + 1)
    · by_cases hs : skipHit (trim b) = true
      · rw [runBlocks_cons_skip execB i0 env b bs hb hs, stepE_skip execB env b hb hs]
        exact ih env (i0 + 1)
      · have hsf : skipHit (trim b) = false := by
          cases hx : skipHit (trim b) <;> simp_all
        rw [runBlocks_cons_run execB i0 env b bs hb hsf, stepE_run execB env b hb hsf]
        exact ih (execB (effCode b) env).1 (i0 + 1)

/-! ### Lemmas about truncation at the guard literal -/

lemma isPreB_append {p x : List Char} (r : List Char) (h : isPreB p x = true) :
    isPreB p (x ++ r) = true := by
  induction p generalizing x with
  | nil => rfl
  | cons a ps ih =>
    cases x with
    | nil => simp [isPreB] at h
    | cons c cs =>
      by_cases hac : a = c
      · subst hac
        rw [isPreB, if_pos rfl] at h
        rw [List.cons_append, isPreB, if_pos rfl]
        exact ih h
      · rw [isPreB, if_neg hac] at h
        exact absurd h (by simp)

lemma beforeSub_append (pat : List Char) :
    ∀ s : List Char, ∃ r, s = beforeSub pat s ++ r := by
  intro s
  induction s with
  | nil => exact ⟨[], rfl⟩
  | cons c cs ih =>
    by_cases h : isPreB pat (c :: cs) = true
    · exact ⟨c :: cs, by simp [beforeSub, h]⟩
    · obtain ⟨r, hr⟩ := ih
      refine ⟨r, ?_⟩
      rw [show beforeSub pat (c :: cs) = c :: beforeSub pat cs from by
        simp [beforeSub, h]]
      rw [List.cons_append, ← hr]

lemma beforeSub_not_contains (pat : List Char) (hp : pat ≠ []) :
    ∀ s : List Char, containsSub pat (beforeSub pat s) = false := by
  intro s
  induction s with
  | nil =>
    simp [beforeSub, containsSub, hp]
  | cons c cs ih =>
    by_cases h : isPreB pat (c :: cs) = true
    · simp [beforeSub, h, containsSub, hp]
    · rw [show beforeSub pat (c :: cs) = c :: beforeSub pat cs from by
        simp [beforeSub, h]]
      rw [containsSub]
      have h1 : isPreB pat (c :: beforeSub pat cs) = false := by
        cases hx : isPreB pat (c :: beforeSub pat cs) with
        | false => rfl
        | true =>
          exfalso
          obtain ⟨r, hr⟩ := beforeSub_append pat cs
          have h2 : isPreB pat ((c :: beforeSub pat cs) ++ r) = true :=
            isPreB_append r hx
          rw [show (c :: beforeSub pat cs) ++ r = c :: cs from by
            rw [List.cons_append, ← hr]] at h2
          exact h h2
      rw [h1, ih]
      rfl

lemma beforeSub_split (pat : List Char) :
    ∀ s : List Char, containsSub pat s = true →
      ∃ r, s = beforeSub pat s ++ r ∧ isPreB pat r = true := by
  intro s
  induction s with
  | nil =>
    intro h
    refine ⟨[], rfl, ?_⟩
    cases pat with
    | nil => rfl
    | cons a ps => simp [containsSub] at h
  | cons c cs ih =>
    intro h
    by_cases hp : isPreB pat (c :: cs) = true
    · exact ⟨c :: cs, by simp [beforeSub, hp], hp⟩
    · rw [containsSub] at h
      have h2 : containsSub pat cs = true := by
        cases hx : isPreB pat (c :: cs) <;> simp_all
      obtain ⟨r, hr1, hr2⟩ := ih h2
      refine ⟨r, ?_, hr2⟩
      rw [show beforeSub pat (c :: cs) = c :: beforeSub pat cs from by
        simp [beforeSub, hp]]
      rw [List.cons_append, ← hr1]

/-! ### Syntax checker lemmas -/

lemma synAux_cons_blank (parse : ParseFn) (i : Nat) (b : List Char)
    (bs : List (List Char)) (hb : trim b = []) :
    checkSyntaxAux parse i (b :: bs) = checkSyntaxAux parse (i + 1) bs := by
  simp [checkSyntaxAux, hb]

lemma synAux_cons_ok (parse : ParseFn) (i : Nat) (b : List Char)
    (bs : List (List Char)) (u : Unit) (hb : trim b ≠ [])
    (hp : parse (trim b) = .ok u) :
    checkSyntaxAux parse i (b :: bs) =
      ⟨(checkSyntaxAux parse (i + 1) bs).failure,
        i :: (checkSyntaxAux parse (i + 1) bs).attempts⟩ := by
  simp [checkSyntaxAux, hb, hp]

lemma synAux_cons_err (parse : ParseFn) (i : Nat) (b : List Char)
    (bs : List (List Char)) (m : List Char) (hb : trim b ≠ [])
    (hp : parse (trim b) = .error m) :
    checkSyntaxAux parse i (b :: bs) = ⟨some (i, m, (trim b).take 100), [i]⟩ := by
  simp [checkSyntaxAux, hb, hp]

lemma synAux_fail (parse : ParseFn) :
    ∀ (bs : List (List Char)) (i0 j : Nat) (msg : List Char) (hj : j < bs.length),
      (∀ k : Fin bs.length, k.1 < j → trim (bs.get k) = [] ∨
        exceptOk (parse (trim (bs.get k))) = true) →
      trim (bs.get ⟨j, hj⟩) ≠ [] →
      parse (trim (bs.get ⟨j, hj⟩)) = .error msg →
      (checkSyntaxAux parse i0 bs).failure =
          some (i0 + j, msg, (trim (bs.get ⟨j, hj⟩)).take 100) ∧
        ∀ a ∈ (checkSyntaxAux parse i0 bs).attempts, a ≤ i0 + j := by
  intro bs
  induction bs with
  | nil =>
    intro i0 j msg hj
    exact absurd hj (by simp)
  | cons b bs ih =>
    intro i0 j msg hj hfirst hnb herr
    cases j with
    | zero =>
      rw [synAux_cons_err parse i0 b bs msg hnb herr]
      refine ⟨by simp, ?_⟩
      intro a ha
      simp at ha
      omega
    | succ j =>
      have hj2 : j < bs.length := Nat.lt_of_succ_lt_succ hj
      have hfirst2 : ∀ k : Fin bs.length, k.1 < j → trim (bs.get k) = [] ∨
          exceptOk (parse (trim (bs.get k))) = true := by
        intro k hk
        exact hfirst ⟨k.1 + 1, Nat.succ_lt_succ k.2⟩ (Nat.succ_lt_succ hk)
      have hidx : i0 + (j + 1) = (i0 + 1) + j := by omega
      have hfb := hfirst ⟨0, Nat.succ_pos _⟩ (Nat.succ_pos _)
      by_cases hb : trim b = []
      · rw [synAux_cons_blank parse i0 b bs hb, hidx]
        exact ih (i0 + 1) j msg hj2 hfirst2 hnb herr
      · have hok : exceptOk (parse (trim b)) = true := by
          rcases hfb with h1 | h2
          · exact absurd h1 hb
          · exact h2
        obtain ⟨u, hu⟩ : ∃ u, parse (trim b) = .ok u := by
          cases hx : parse (trim b) with
          | ok u => exact ⟨u, rfl⟩
          | error m => rw [hx] at hok; exact absurd hok (by simp [exceptOk])
        rw [synAux_cons_ok parse i0 b bs u hb hu, hidx]
        obtain ⟨hf, hatt⟩ := ih (i0 + 1) j msg hj2 hfirst2 hnb herr
        refine ⟨hf, ?_⟩
        intro a ha
        rcases List.mem_cons.mp ha with h1 | h2
        · omega
        · exact hatt a h2

lemma synAux_attempts (parse : ParseFn) :
    ∀ (bs : List (List Char)) (i0 : Nat),
      ∀ a ∈ (checkSyntaxAux parse i0 bs).attempts,
        ∃ k : Fin bs.length, a = i0 + k.1 ∧ trim (bs.get k) ≠ [] := by
  intro bs
  induction bs with
  | nil =>
    intro i0 a ha
    simp [checkSyntaxAux] at ha
  | cons b bs ih =>
    intro i0 a ha
    by_cases hb : trim b = []
    · rw [synAux_cons_blank parse i0 b bs hb] at ha
      obtain ⟨k, hk1, hk2⟩ := ih (i0 + 1) a ha
      exact ⟨⟨k.1 + 1, Nat.succ_lt_succ k.2⟩,
        by show a = i0 + (k.1 + 1); omega, hk2⟩
    · cases hp : parse (trim b) with
      | ok u =>
        rw [synAux_cons_ok parse i0 b bs u hb hp] at ha
        rcases List.mem_cons.mp ha with h1 | h2
        · exact ⟨⟨0, Nat.succ_pos _⟩, by rw [h1]; show i0 = i0 + 0; omega, hb⟩
        · obtain ⟨k, hk1, hk2⟩ := ih (i0 + 1) a h2
          exact ⟨⟨k.1 + 1, Nat.succ_lt_succ k.2⟩,
            by show a = i0 + (k.1 + 1); omega, hk2⟩
      | error m =>
        rw [synAux_cons_err parse i0 b bs m hb hp] at ha
        simp at ha
        exact ⟨⟨0, Nat.succ_pos _⟩, by rw [ha]; show i0 = i0 + 0; omega, hb⟩

lemma synAux_pass_iff (parse : ParseFn) :
    ∀ (bs : List (List Char)) (i0 : Nat),
      (checkSyntaxAux parse i0 bs).failure = none ↔
        ∀ b ∈ bs, trim b = [] ∨ exceptOk (parse (trim b)) = true := by
  intro bs
  induction bs with
  | nil =>
    intro i0
    simp [checkSyntaxAux]
  | cons b bs ih =>
    intro i0
    by_cases hb : trim b = []
    · rw [synAux_cons_blank parse i0 b bs hb, ih (i0 + 1)]
      constructor
      · intro h x hx
        rcases List.mem_cons.mp hx with h1 | h2
        · subst h1; exact Or.inl hb
        · exact h x h2
      · intro h x hx
        exact h x (List.mem_cons_of_mem _ hx)
    · cases hp : parse (trim b) with
      | ok u =>
        rw [synAux_cons_ok parse i0 b bs u hb hp]
        show (checkSyntaxAux parse (i0 + 1) bs).failure = none ↔ _
        rw [ih (i0 + 1)]
        constructor
        · intro h x hx
          rcases List.mem_cons.mp hx with h1 | h2
          · subst h1
            exact Or.inr (by rw [hp]; rfl)
          · exact h x h2
        · intro h x hx
          exact h x (List.mem_cons_of_mem _ hx)
      | error m =>
        rw [synAux_cons_err parse i0 b bs m hb hp]
        constructor
        · intro h
          exact absurd h (by simp)
        · intro h
          rcases h b (List.mem_cons_self _ _) with h1 | h2
          · exact absurd h1 hb
          · rw [hp] at h2
            exact absurd h2 (by simp [exceptOk])

/-! ### Expected-status helpers -/

lemma expectedSt_skip {V : Type} (execB : ExecFn V) (env : Env V) (b : List Char)
    (hnb : trim b ≠ []) (hs : skipHit (trim b) = true) :
    expectedSt execB env b = some BStatus.skipped := by
  simp [expectedSt, hnb, hs]

lemma expectedSt_run {V : Type} (execB : ExecFn V) (env : Env V) (b : List Char)
    (hnb : trim b ≠ []) (hs : skipHit (trim b) = false) :
    expectedSt execB env b = some (resStatus (execB (effCode b) env).2) := by
  simp [expectedSt, hnb, hs]

lemma effCode_guard (b : List Char) (hg : containsSub guardLit (trim b) = true) :
    effCode b = trim (beforeSub guardLit (trim b)) := by
  simp [effCode, hg]

/-! ## Claims C3, C4, C5, C10: the execution loop -/

/-- Claim C3: whenever the trimmed text of a block contains one of the
fixed exclusion substrings, the execution validator records that block
as skipped, passes its code to the execution primitive never (the trace
holds no entry for its index), and the environment after considering the
block is exactly the environment before it.  Proved for every execution
primitive, starting environment, block sequence and position. -/
theorem skip_frame {V : Type} (execB : ExecFn V) (env0 : Env V)
    (bs : List (List Char)) (j : Nat) (hj : j < bs.length)
    (hs : skipHit (trim (bs.get ⟨j, hj⟩)) = true) :
    BlockRes.mk (1 + j) BStatus.skipped ∈ (runBlocks execB 1 env0 bs).results ∧
    (∀ e ∈ (runBlocks execB 1 env0 bs).trace, e.1 ≠ 1 + j) ∧
    envAt execB env0 bs (j + 1) = envAt execB env0 bs j := by
  have hnb : trim (bs.get ⟨j, hj⟩) ≠ [] := by
    intro h0
    rw [h0, skipHit_nil] at hs
    exact absurd hs (by simp)
  refine ⟨?_, ?_, ?_⟩
  · exact runBlocks_results_mem execB bs env0 1 j hj _
      (expectedSt_skip execB _ _ hnb hs)
  · intro e he h1
    obtain ⟨k, hk1, _, hk3, _⟩ := runBlocks_trace_chr execB bs env0 1 e he
    have hkj : k = ⟨j, hj⟩ := Fin.ext (show k.1 = j by omega)
    rw [hkj] at hk3
    rw [hk3] at hs
    exact absurd hs (by simp)
  · rw [envAt_succ execB env0 bs j hj]
    exact stepE_skip execB _ _ hnb hs

/-- Claim C4: for a non-blank, non-excluded block whose trimmed text
contains the entry-point guard literal, exactly the trimmed text
strictly preceding the first occurrence of the guard is passed to the
execution primitive: that code is in the trace, every trace entry for
this block carries that code, the environment evolves by executing
exactly that code, the executed code contains no occurrence of the
guard, and the discarded remainder begins with the guard literal. -/
theorem guard_stripping {V : Type} (execB : ExecFn V) (env0 : Env V)
    (bs : List (List Char)) (j : Nat) (hj : j < bs.length)
    (hnb : trim (bs.get ⟨j, hj⟩) ≠ [])
    (hns : skipHit (trim (bs.get ⟨j, hj⟩)) = false)
    (hg : containsSub guardLit (trim (bs.get ⟨j, hj⟩)) = true) :
    (1 + j, trim (beforeSub guardLit (trim (bs.get ⟨j, hj⟩)))) ∈
        (runBlocks execB 1 env0 bs).trace ∧
    (∀ e ∈ (runBlocks execB 1 env0 bs).trace, e.1 = 1 + j →
        e.2 = trim (beforeSub guardLit (trim (bs.get ⟨j, hj⟩)))) ∧
    envAt execB env0 bs (j + 1) =
        (execB (trim (beforeSub guardLit (trim (bs.get ⟨j, hj⟩))))
          (envAt execB env0 bs j)).1 ∧
    containsSub guardLit (beforeSub guardLit (trim (bs.get ⟨j, hj⟩))) = false ∧
    ∃ r, trim (bs.get ⟨j, hj⟩) = beforeSub guardLit (trim (bs.get ⟨j, hj⟩)) ++ r ∧
        isPreB guardLit r = true := by
  have heff := effCode_guard (bs.get ⟨j, hj⟩) hg
  refine ⟨?_, ?_, ?_, ?_, ?_⟩
  · rw [← heff]
    exact runBlocks_trace_mem execB bs env0 1 j hj hnb hns
  · intro e he h1
    obtain ⟨k, hk1, _, _, hk4⟩ := runBlocks_trace_chr execB bs env0 1 e he
    have hkj : k = ⟨j, hj⟩ := Fin.ext (show k.1 = j by omega)
    rw [hkj] at hk4
    rw [hk4, heff]
  · rw [envAt_succ execB env0 bs j hj, stepE_run execB _ _ hnb hns, heff]
  · exact beforeSub_not_contains guardLit (by decide) _
  · exact beforeSub_split guardLit _ hg

/-- Claim C5: when the execution primitive raises on a block (returns an
error message together with the partially updated environment), the
validator records that block as a runtime error carrying the message,
still produces a result record for every non-blank block of the
sequence, and adopts the partially updated environment without rolling
anything back. -/
theorem runtime_error_isolation {V : Type} (execB : ExecFn V) (env0 : Env V)
    (bs : List (List Char)) (j : Nat) (hj : j < bs.length)
    (env2 : Env V) (msg : List Char)
    (hnb : trim (bs.get ⟨j, hj⟩) ≠ [])
    (hns : skipHit (trim (bs.get ⟨j, hj⟩)) = false)
    (hex : execB (effCode (bs.get ⟨j, hj⟩)) (envAt execB env0 bs j) =
      (env2, some msg)) :
    BlockRes.mk (1 + j) (BStatus.runtimeErr msg) ∈
        (runBlocks execB 1 env0 bs).results ∧
    (∀ k : Fin bs.length, trim (bs.get k) ≠ [] →
        ∃ st, BlockRes.mk (1 + k.1) st ∈ (runBlocks execB 1 env0 bs).results) ∧
    envAt execB env0 bs (j + 1) = env2 := by
  refine ⟨?_, ?_, ?_⟩
  · apply runBlocks_results_mem execB bs env0 1 j hj
    rw [expectedSt_run execB _ _ hnb hns, hex]
    rfl
  · intro k hk
    by_cases hsk : skipHit (trim (bs.get k)) = true
    · exact ⟨.skipped, runBlocks_results_mem execB bs env0 1 k.1 k.2 _
        (expectedSt_skip execB _ _ hk hsk)⟩
    · have hskf : skipHit (trim (bs.get k)) = false := by
        cases hx : skipHit (trim (bs.get k)) <;> simp_all
      exact ⟨resStatus (execB (effCode (bs.get k)) (envAt execB env0 bs k.1)).2,
        runBlocks_results_mem execB bs env0 1 k.1 k.2 _
          (expectedSt_run execB _ _ hk hskf)⟩
  · rw [envAt_succ execB env0 bs j hj, stepE_run execB _ _ hnb hns, hex]

/-- Claim C10: the exclusion check is applied to the whole trimmed block
text before guard stripping, so a block whose exclusion substring lies
only in the guarded driver section (the effective pre-guard code is free
of every exclusion substring) is nevertheless skipped in its entirety:
no code of it reaches the execution primitive and the environment is
unchanged, so even its pre-guard definitions are never added. -/
theorem skip_before_stripping {V : Type} (execB : ExecFn V) (env0 : Env V)
    (bs : List (List Char)) (j : Nat) (hj : j < bs.length)
    (hg : containsSub guardLit (trim (bs.get ⟨j, hj⟩)) = true)
    (hs : skipHit (trim (bs.get ⟨j, hj⟩)) = true)
    (hpre : skipHit (trim (beforeSub guardLit (trim (bs.get ⟨j, hj⟩)))) = false) :
    BlockRes.mk (1 + j) BStatus.skipped ∈ (runBlocks execB 1 env0 bs).results ∧
    (∀ e ∈ (runBlocks execB 1 env0 bs).trace, e.1 ≠ 1 + j) ∧
    envAt execB env0 bs (j + 1) = envAt execB env0 bs j := by
  have hnb : trim (bs.get ⟨j, hj⟩) ≠ [] := by
    intro h0
    rw [h0, skipHit_nil] at hs
    exact absurd hs (by simp)
  refine ⟨?_, ?_, ?_⟩
  · exact runBlocks_results_mem execB bs env0 1 j hj _
      (expectedSt_skip execB _ _ hnb hs)
  · intro e he h1
    obtain ⟨k, hk1, _, hk3, _⟩ := runBlocks_trace_chr execB bs env0 1 e he
    have hkj : k = ⟨j, hj⟩ := Fin.ext (show k.1 = j by omega)
    rw [hkj] at hk3
    rw [hk3] at hs
    exact absurd hs (by simp)
  · rw [envAt_succ execB env0 bs j hj]
    exact stepE_skip execB _ _ hnb hs

/-! ## Claim C6: probing -/

/-- Claim C6: for every entry of the probe table, a symbol absent from
the final environment yields a notFound probe result; a present symbol
is invoked through the evaluation primitive on the literal invocation
expression of the entry, a successful evaluation yielding an ok result
with the returned value and a raised error yielding an err result with
the message.  Every outcome is a total PStatus value, so probing lets no
exception escape the validator. -/
theorem probe_results {E V W : Type} (evalB : EvalFn E V W) (env : Env V)
    (probes : List (List Char × E)) (n : List Char) (e : E)
    (hmem : (n, e) ∈ probes) :
    (lookupE n env = none →
      (n, PStatus.notFound) ∈ runProbes evalB env probes) ∧
    (∀ v, lookupE n env = some v → ∀ w, evalB e env = .ok w →
      (n, PStatus.ok w) ∈ runProbes evalB env probes) ∧
    (∀ v, lookupE n env = some v → ∀ m, evalB e env = .error m →
      (n, PStatus.err m) ∈ runProbes evalB env probes) := by
  refine ⟨?_, ?_, ?_⟩
  · intro hl
    have hp : probeOne evalB env (n, e) = (n, .notFound) := by
      simp [probeOne, hl]
    rw [← hp]
    exact List.mem_map_of_mem _ hmem
  · intro v hl w hw
    have hp : probeOne evalB env (n, e) = (n, .ok w) := by
      simp [probeOne, hl, hw]
    rw [← hp]
    exact List.mem_map_of_mem _ hmem
  · intro v hl m hm
    have hp : probeOne evalB env (n, e) = (n, .err m) := by
      simp [probeOne, hl, hm]
    rw [← hp]
    exact List.mem_map_of_mem _ hmem

/-! ## Claim C7: syntax fail-fast -/

/-- Claim C7: when block j (0-based; every earlier block blank or
parsing successfully) is non-blank and fails to parse, the syntax
validator reports exactly the 1-based index 1 + j, the diagnostic of the
parser, and the first 100 characters of the trimmed content; no parse is
attempted on any later block (every attempted index is at most 1 + j)
and no blank block is ever attempted. -/
theorem syntax_failfast (parse : ParseFn) (bs : List (List Char)) (j : Nat)
    (msg : List Char) (hj : j < bs.length)
    (hfirst : ∀ k : Fin bs.length, k.1 < j → trim (bs.get k) = [] ∨
      exceptOk (parse (trim (bs.get k))) = true)
    (hnb : trim (bs.get ⟨j, hj⟩) ≠ [])
    (herr : parse (trim (bs.get ⟨j, hj⟩)) = .error msg) :
    (checkSyntax parse bs).failure =
        some (1 + j, msg, (trim (bs.get ⟨j, hj⟩)).take 100) ∧
    (∀ a ∈ (checkSyntax parse bs).attempts, a ≤ 1 + j) ∧
    (∀ a ∈ (checkSyntax parse bs).attempts,
      ∃ k : Fin bs.length, a = 1 + k.1 ∧ trim (bs.get k) ≠ []) := by
  obtain ⟨h1, h2⟩ := synAux_fail parse bs 1 j msg hj hfirst hnb herr
  exact ⟨h1, h2, synAux_attempts parse bs 1⟩

/-! ## Claim C8: exit codes -/

/-- Claim C8: an unreadable source makes both validators exit non-zero;
on a readable source the syntax validator exits 0 exactly when every
extracted block is blank or parses, while the execution validator exits
0 unconditionally whatever the per-block and per-probe outcomes are. -/
theorem exit_codes {E V W : Type} (parse : ParseFn) (execB : ExecFn V)
    (evalB : EvalFn E V W) (probes : List (List Char × E)) (c : List Char) :
    syntaxExit parse none = 1 ∧
    execExit execB evalB probes none = 1 ∧
    execExit execB evalB probes (some c) = 0 ∧
    (syntaxExit parse (some c) = 0 ↔
      ∀ b ∈ extractBlocks c, trim b = [] ∨ exceptOk (parse (trim b)) = true) := by
  refine ⟨rfl, rfl, rfl, ?_⟩
  simp only [syntaxExit, checkSyntax]
  rw [← synAux_pass_iff parse (extractBlocks c) 1]
  cases h : (checkSyntaxAux parse 1 (extractBlocks c)).failure with
  | none => simp [h]
  | some x => simp [h]

/-! ## A concrete mini-interpreter

Claims about symbol accumulation need actual define-and-call semantics,
which the generic execution primitive cannot supply.  This tiny
interpreter provides it: a block is a sequence of lines; a line either
defines a symbol (bound to a function that returns its argument, or to
one that raises), invokes a symbol (raising an undefined-name error when
it is absent from the environment), raises outright, or is rejected.
Execution stops at the first error and keeps all bindings made before
it, matching the behaviour of the dynamic execution primitive of the
source. -/

/-- Values of the mini language: a function returning its argument, or a
function raising when called. -/
inductive MVal
  | retFn
  | errFn
deriving DecidableEq

/-- Diagnostic for an undefined name, naming the symbol. -/
def nameUndefMsg (n : List Char) : List Char :=
  "name ".data ++ n ++ " is not defined".data

/-- Run one trimmed line of the mini language. -/
def runLine (env : Env MVal) (l : List Char) : Env MVal × Option (List Char) :=
  let t := trim l
  if t = [] then (env, none)
  else if isPreB "deferr ".data t = true then ((t.drop 7, MVal.errFn) :: env, none)
  else if isPreB "def ".data t = true then ((t.drop 4, MVal.retFn) :: env, none)
  else if isPreB "use ".data t = true then
    (if (lookupE (t.drop 4) env).isSome = true then (env, none)
     else (env, some (nameUndefMsg (t.drop 4))))
  else if isPreB "raise ".data t = true then (env, some (t.drop 6))
  else (env, some ("invalid statement: ".data ++ t))

/-- Run lines in order, stopping at the first error and keeping the
bindings made before it. -/
def runCodeM : Env MVal → List (List Char) → Env MVal × Option (List Char)
  | env, [] => (env, none)
  | env, l :: ls =>
    match runLine env l with
    | (env2, none) => runCodeM env2 ls
    | (env2, some m) => (env2, some m)

/-- The mini interpreter as an execution primitive. -/
def execM (code : List Char) (env : Env MVal) : Env MVal × Option (List Char) :=
  runCodeM env (splitLines code)

/-- A literal invocation expression: callee name and numeric argument. -/
structure MCall where
  callee : List Char
  arg : Nat
deriving DecidableEq

/-- The mini interpreter as an evaluation primitive for probing. -/
def evalM (c : MCall) (env : Env MVal) : Except (List Char) Nat :=
  match lookupE c.callee env with
  | none => .error (nameUndefMsg c.callee)
  | some MVal.retFn => .ok c.arg
  | some MVal.errFn => .error ("call failed: ".data ++ c.callee)

/-- A one-line block defining a symbol. -/
def defLine (f : List Char) : List Char := 'd' :: 'e' :: 'f' :: ' ' :: f

/-- A one-line block invoking a symbol. -/
def useLine (f : List Char) : List Char := 'u' :: 's' :: 'e' :: ' ' :: f

/-! ### Mini-interpreter lemmas -/

lemma effCode_noguard (b : List Char)
    (hng : containsSub guardLit (trim b) = false) : effCode b = trim b := by
  simp [effCode, hng]

lemma dropWhile_eq_self (p : Char → Bool) (s : List Char)
    (h : ∀ c, s.head? = some c → p c = false) : s.dropWhile p = s := by
  cases s with
  | nil => rfl
  | cons c cs => simp [List.dropWhile_cons, h c rfl]

lemma trim_eq_self (s : List Char)
    (hh : ∀ c, s.head? = some c → isWS c = false)
    (hl : ∀ c, s.getLast? = some c → isWS c = false) : trim s = s := by
  unfold trim
  rw [dropWhile_eq_self isWS s hh]
  rw [dropWhile_eq_self isWS s.reverse
    (fun c hc => hl c ((List.head?_reverse s).symm.trans hc))]
  exact List.reverse_reverse s

lemma splitLines_single (s : List Char) (h : ∀ c ∈ s, c ≠ '\n') :
    splitLines s = [s] := by
  induction s with
  | nil => rfl
  | cons c cs ih =>
    have hc : c ≠ '\n' := h c (List.mem_cons_self _ _)
    have hcs := ih (fun x hx => h x (List.mem_cons_of_mem _ hx))
    rw [splitLines, if_neg hc, hcs]

lemma runLine_def (env : Env MVal) (n : List Char)
    (ht : trim (defLine n) = defLine n) :
    runLine env (defLine n) = ((n, MVal.retFn) :: env, none) := by
  unfold runLine
  rw [ht]
  rfl

lemma runLine_use (env : Env MVal) (n : List Char)
    (ht : trim (useLine n) = useLine n) :
    runLine env (useLine n) =
      (if (lookupE n env).isSome = true then (env, none)
       else (env, some (nameUndefMsg n))) := by
  unfold runLine
  rw [ht]
  rfl

lemma runCodeM_cons (env : Env MVal) (l : List Char) (ls : List (List Char)) :
    runCodeM env (l :: ls) =
      match runLine env l with
      | (env2, none) => runCodeM env2 ls
      | (env2, some m) => (env2, some m) := rfl

lemma execM_defLine (env : Env MVal) (n : List Char)
    (ht : trim (defLine n) = defLine n) (hnl : ∀ c ∈ defLine n, c ≠ '\n') :
    execM (defLine n) env = ((n, MVal.retFn) :: env, none) := by
  unfold execM
  rw [splitLines_single _ hnl, runCodeM_cons, runLine_def env n ht]
  rfl

lemma execM_useLine (env : Env MVal) (n : List Char)
    (ht : trim (useLine n) = useLine n) (hnl : ∀ c ∈ useLine n, c ≠ '\n') :
    execM (useLine n) env =
      (if (lookupE n env).isSome = true then (env, none)
       else (env, some (nameUndefMsg n))) := by
  unfold execM
  rw [splitLines_single _ hnl, runCodeM_cons, runLine_use env n ht]
  cases h : (lookupE n env).isSome with
  | true => simp [h, runCodeM]
  | false => simp [h]

/-! ## Claim C2: accumulation order -/

/-- Claim C2: with the mini interpreter as execution primitive, a block
defining symbol f followed by a block invoking f leaves both blocks
executed and f bound in the final environment; in the reversed order the
invoking block fails with a runtime error naming f as undefined (and the
defining block still executes afterwards).  The hypotheses only keep the
symbol name printable: non-empty, free of whitespace, and neither line
hitting the exclusion list or the guard literal. -/
theorem accumulation_order (f : List Char) (hne : f ≠ [])
    (hws : ∀ c ∈ f, isWS c = false)
    (hd1 : skipHit (defLine f) = false) (hd2 : skipHit (useLine f) = false)
    (hg1 : containsSub guardLit (defLine f) = false)
    (hg2 : containsSub guardLit (useLine f) = false) :
    (runBlocks execM 1 [] [defLine f, useLine f]).results =
        [⟨1, .executed⟩, ⟨2, .executed⟩] ∧
    lookupE f (runBlocks execM 1 [] [defLine f, useLine f]).env =
        some MVal.retFn ∧
    (runBlocks execM 1 [] [useLine f, defLine f]).results =
        [⟨1, .runtimeErr (nameUndefMsg f)⟩, ⟨2, .executed⟩] := by
  have hnlf : ∀ c ∈ f, c ≠ '\n' := by
    intro c hc he
    have hw := hws c hc
    rw [he] at hw
    exact absurd hw (by decide)
  have hnld : ∀ c ∈ defLine f, c ≠ '\n' := by
    intro c hc
    simp only [defLine, List.mem_cons] at hc
    rcases hc with h | h | h | h | h
    · rw [h]; decide
    · rw [h]; decide
    · rw [h]; decide
    · rw [h]; decide
    · exact hnlf c h
  have hnlu : ∀ c ∈ useLine f, c ≠ '\n' := by
    intro c hc
    simp only [useLine, List.mem_cons] at hc
    rcases hc with h | h | h | h | h
    · rw [h]; decide
    · rw [h]; decide
    · rw [h]; decide
    · rw [h]; decide
    · exact hnlf c h
  have hlast : ∀ c, f.getLast? = some c → isWS c = false := by
    intro c hc
    have hm : c ∈ f := by
      obtain ⟨hh, he⟩ := @List.mem_getLast?_eq_getLast Char f c (by rw [hc]; rfl)
      rw [he]
      exact List.getLast_mem hh
    exact hws c hm
  have htd : trim (defLine f) = defLine f := by
    apply trim_eq_self
    · intro c hc
      simp only [defLine, List.head?_cons, Option.some.injEq] at hc
      subst hc
      decide
    · intro c hc
      rw [show defLine f = ['d', 'e', 'f', ' '] ++ f from rfl,
        List.getLast?_append_of_ne_nil _ hne] at hc
      exact hlast c hc
  have htu : trim (useLine f) = useLine f := by
    apply trim_eq_self
    · intro c hc
      simp only [useLine, List.head?_cons, Option.some.injEq] at hc
      subst hc
      decide
    · intro c hc
      rw [show useLine f = ['u', 's', 'e', ' '] ++ f from rfl,
        List.getLast?_append_of_ne_nil _ hne] at hc
      exact hlast c hc
  have hnbd : trim (defLine f) ≠ [] := by rw [htd]; simp [defLine]
  have hnbu : trim (useLine f) ≠ [] := by rw [htu]; simp [useLine]
  have hsd : skipHit (trim (defLine f)) = false := by rw [htd]; exact hd1
  have hsu : skipHit (trim (useLine f)) = false := by rw [htu]; exact hd2
  have hedf : effCode (defLine f) = defLine f := by
    rw [effCode_noguard (defLine f) (by rw [htd]; exact hg1), htd]
  have heuf : effCode (useLine f) = useLine f := by
    rw [effCode_noguard (useLine f) (by rw [htu]; exact hg2), htu]
  have hexd : ∀ env, execM (defLine f) env = ((f, MVal.retFn) :: env, none) :=
    fun env => execM_defLine env f htd hnld
  have hlookup : lookupE f ((f, MVal.retFn) :: []) = some MVal.retFn := by
    simp [lookupE]
  have hexu1 : execM (useLine f) ((f, MVal.retFn) :: []) =
      ((f, MVal.retFn) :: [], none) := by
    rw [execM_useLine ((f, MVal.retFn) :: []) f htu hnlu]
    simp [hlookup]
  have hexu0 : execM (useLine f) [] = ([], some (nameUndefMsg f)) := by
    rw [execM_useLine [] f htu hnlu]
    rfl
  have h1 : runBlocks execM 2 ((f, MVal.retFn) :: []) [useLine f] =
      ⟨[⟨2, .executed⟩], (f, MVal.retFn) :: [], [(2, useLine f)]⟩ := by
    rw [runBlocks_cons_run execM 2 ((f, MVal.retFn) :: []) (useLine f) [] hnbu hsu,
      heuf, hexu1]
    rfl
  have h2 : runBlocks execM 1 [] [defLine f, useLine f] =
      ⟨[⟨1, .executed⟩, ⟨2, .executed⟩], (f, MVal.retFn) :: [],
        [(1, defLine f), (2, useLine f)]⟩ := by
    rw [runBlocks_cons_run execM 1 [] (defLine f) [useLine f] hnbd hsd, hedf,
      hexd []]
    have hp : (((f, MVal.retFn) :: [], (none : Option (List Char)))).1 =
        (f, MVal.retFn) :: [] := rfl
    rw [hp, h1]
    rfl
  have h3 : runBlocks execM 2 [] [defLine f] =
      ⟨[⟨2, .executed⟩], (f, MVal.retFn) :: [], [(2, defLine f)]⟩ := by
    rw [runBlocks_cons_run execM 2 [] (defLine f) [] hnbd hsd, hedf, hexd []]
    rfl
  have h4 : runBlocks execM 1 [] [useLine f, defLine f] =
      ⟨[⟨1, .runtimeErr (nameUndefMsg f)⟩, ⟨2, .executed⟩], (f, MVal.retFn) :: [],
        [(1, useLine f), (2, defLine f)]⟩ := by
    rw [runBlocks_cons_run execM 1 [] (useLine f) [defLine f] hnbu hsu, heuf,
      hexu0]
    have hp : ((([] : Env MVal), some (nameUndefMsg f))).1 = ([] : Env MVal) := rfl
    rw [hp, h3]
    rfl
  exact ⟨by rw [h2], by rw [h2]; exact hlookup, by rw [h4]⟩

theorem accumulation_order_witness :
    (runBlocks execM 1 [] [defLine ['f'], useLine ['f']]).results =
        [⟨1, .executed⟩, ⟨2, .executed⟩] ∧
    lookupE ['f'] (runBlocks execM 1 [] [defLine ['f'], useLine ['f']]).env =
        some MVal.retFn ∧
    (runBlocks execM 1 [] [useLine ['f'], defLine ['f']]).results =
        [⟨1, .runtimeErr (nameUndefMsg ['f'])⟩, ⟨2, .executed⟩] :=
  accumulation_order ['f'] (by decide) (by decide) (by decide) (by decide)
    (by decide) (by decide)

/-! ## Concrete instances for the execution-loop claims -/

/-- A block whose trimmed text contains an exclusion substring. -/
def demoSkipBlock : List Char := "result = pool.map(square, data)".data

/-- A block with a definition before the entry-point guard and a
would-fail invocation after it. -/
def demoGuardBlock : List Char :=
  "def f\nif __name__ == \"__main__\"\nuse g".data

/-- A block raising outright. -/
def demoRaiseBlock : List Char := "raise boom".data

/-- A block whose only exclusion substring occurrence lies after the
entry-point guard. -/
def demoMixedBlock : List Char :=
  "def h\nif __name__ == \"__main__\"\nresult = pool.map(h, data)".data

theorem skip_frame_witness :
    BlockRes.mk 1 BStatus.skipped ∈
        (runBlocks execM 1 [] [demoSkipBlock]).results ∧
    (∀ e ∈ (runBlocks execM 1 [] [demoSkipBlock]).trace, e.1 ≠ 1) ∧
    envAt execM [] [demoSkipBlock] 1 = envAt execM [] [demoSkipBlock] 0 :=
  skip_frame execM [] [demoSkipBlock] 0 (by decide) (by decide)

theorem guard_stripping_witness :
    (1, trim (beforeSub guardLit (trim demoGuardBlock))) ∈
        (runBlocks execM 1 [] [demoGuardBlock]).trace ∧
    (∀ e ∈ (runBlocks execM 1 [] [demoGuardBlock]).trace, e.1 = 1 →
        e.2 = trim (beforeSub guardLit (trim demoGuardBlock))) ∧
    envAt execM [] [demoGuardBlock] 1 =
        (execM (trim (beforeSub guardLit (trim demoGuardBlock)))
          (envAt execM [] [demoGuardBlock] 0)).1 ∧
    containsSub guardLit (beforeSub guardLit (trim demoGuardBlock)) = false ∧
    (∃ r, trim demoGuardBlock = beforeSub guardLit (trim demoGuardBlock) ++ r ∧
        isPreB guardLit r = true) :=
  guard_stripping execM [] [demoGuardBlock] 0 (by decide) (by decide) (by decide)
    (by decide)

theorem runtime_error_isolation_witness :
    BlockRes.mk 1 (BStatus.runtimeErr "boom".data) ∈
        (runBlocks execM 1 [] [demoRaiseBlock, defLine ['g']]).results ∧
    (∀ k : Fin 2, trim ([demoRaiseBlock, defLine ['g']].get k) ≠ [] →
        ∃ st, BlockRes.mk (1 + k.1) st ∈
          (runBlocks execM 1 [] [demoRaiseBlock, defLine ['g']]).results) ∧
    envAt execM [] [demoRaiseBlock, defLine ['g']] 1 = [] :=
  runtime_error_isolation execM [] [demoRaiseBlock, defLine ['g']] 0 (by decide)
    [] "boom".data (by decide) (by decide) (by decide)

theorem skip_before_stripping_witness :
    BlockRes.mk 1 BStatus.skipped ∈
        (runBlocks execM 1 [] [demoMixedBlock]).results ∧
    (∀ e ∈ (runBlocks execM 1 [] [demoMixedBlock]).trace, e.1 ≠ 1) ∧
    envAt execM [] [demoMixedBlock] 1 = envAt execM [] [demoMixedBlock] 0 :=
  skip_before_stripping execM [] [demoMixedBlock] 0 (by decide) (by decide)
    (by decide) (by decide)

theorem probe_results_witness :
    (['f'], PStatus.ok 5) ∈
      runProbes evalM [(['f'], MVal.retFn)] [(['f'], MCall.mk ['f'] 5)] :=
  (probe_results evalM [(['f'], MVal.retFn)] [(['f'], MCall.mk ['f'] 5)]
      ['f'] (MCall.mk ['f'] 5) (by decide)).2.1 MVal.retFn (by rfl) 5 (by rfl)

/-- A sample structural parser for instantiating the syntax claims:
reject exactly the texts containing a marker of malformedness. -/
def parseDemo : ParseFn := fun t =>
  if containsSub "!!".data t = true then Except.error "unexpected token".data
  else Except.ok ()

/-- Five blocks, the third (non-blank) one malformed. -/
def demoBlocks7 : List (List Char) :=
  ["x = 1".data, "   ".data, "y = !! 2".data, "z = 3".data, "w = 4".data]

theorem syntax_failfast_witness :
    (checkSyntax parseDemo demoBlocks7).failure =
        some (3, "unexpected token".data, "y = !! 2".data) ∧
    (∀ a ∈ (checkSyntax parseDemo demoBlocks7).attempts, a ≤ 3) ∧
    (∀ a ∈ (checkSyntax parseDemo demoBlocks7).attempts,
      ∃ k : Fin demoBlocks7.length, a = 1 + k.1 ∧ trim (demoBlocks7.get k) ≠ []) :=
  syntax_failfast parseDemo demoBlocks7 2 "unexpected token".data (by decide)
    (by decide) (by decide) (by rfl)
